import Mathlib

/-!
# Neko (Network Konstructor): a shallow embedding of the core engine

Neko builds, enriches and revises directed signed molecular-interaction
networks.  The repository ships only documentation and executed notebooks;
the Python implementation (`neko/core/network.py`, `neko/_methods/compare.py`,
...) is not among the provided sources, so every operation below is
modelled from the specification, with concrete behaviour corroborated by the
executed notebook outputs committed in the repository
(`README.rst`, `notebooks/7_tissue_mapping.ipynb`,
`docs/src/notebooks/6_ontology.ipynb`).
-/

namespace Neko

/-- Modelled from the spec: effect labels of an interaction are drawn from
{stimulation, inhibition, bimodal, undefined} (spec §3, Edge). -/
inductive Effect where
  | stimulation
  | inhibition
  | bimodal
  | undef
  deriving DecidableEq, Repr

/-- Modelled from the spec: an interaction supplied by the
InteractionResource: `(source, target, effect, type, consensus, references)`
(spec §6) plus the curated/high-confidence marker used by
`connect_with_bias` (spec §4.2). -/
structure Interaction where
  source : String
  target : String
  effect : Effect
  itype : String
  consensus : Bool
  curated : Bool
  refs : List String
  deriving DecidableEq, Repr

/-- Modelled from the spec: an interaction is "signed" iff its effect is
stimulation or inhibition (spec §4.2, shared sign policy). -/
def isSigned (e : Effect) : Bool :=
  match e with
  | .stimulation => true
  | .inhibition => true
  | _ => false

/-- Filter switches shared by the connection operations (spec §4.2). -/
structure Filters where
  onlySigned : Bool
  consensusOnly : Bool
  deriving DecidableEq, Repr

/-- Modelled from the spec: an interaction passes the shared filtering
policy iff it is signed when `only_signed` is set and its consensus marker
holds when `consensus` is set (spec §4.2). -/
def passes (f : Filters) (i : Interaction) : Bool :=
  (!f.onlySigned || isSigned i.effect) && (!f.consensusOnly || i.consensus)

/-- Directed successors of `a` in the filtered resource graph. -/
def successors (res : List Interaction) (f : Filters) (a : String) : List String :=
  (res.filter (fun i => passes f i && (i.source == a))).map (·.target)

/-- Modelled from the spec: a node record keeps the canonical gene symbol
and UniProt accession (spec §3 and the node table of
`notebooks/7_tissue_mapping.ipynb`). -/
structure NodeRec where
  genesymbol : String
  uniprot : String
  deriving DecidableEq, Repr

/-- Modelled from the spec: an edge of the Graph Store: ordered endpoint
pair, effect label, interaction type and provenance references (spec §3). -/
structure Edge where
  source : String
  target : String
  effect : Effect
  itype : String
  refs : List String
  deriving DecidableEq, Repr

/-- Modelled from the spec: the Graph Store of a Network is its node set
and edge set (spec §2, §3). -/
structure Graph where
  nodes : List NodeRec
  edges : List Edge
  deriving DecidableEq, Repr

/-- Identifiers of the nodes currently in the store. -/
def Graph.nodeIds (g : Graph) : List String :=
  g.nodes.map (·.genesymbol)

/-- Modelled from the spec: `add_node` is idempotent — it returns the
store unchanged when the identifier is already present (spec §4.1). -/
def Graph.addNode (g : Graph) (n : NodeRec) : Graph :=
  if n.genesymbol ∈ g.nodeIds then g else { g with nodes := g.nodes ++ [n] }

/-- Modelled from the spec: edge merge never silently discards evidence:
an identical record is deduplicated, any other record is retained as an
additional record for the pair (spec §4.1). -/
def Graph.addEdgeRec (g : Graph) (e : Edge) : Graph :=
  if e ∈ g.edges then g else { g with edges := g.edges ++ [e] }

/-- The synthetic phenotype node identifier: the phenotype label with each
space replaced by an underscore, as shown by the executed ontology notebook
(label "epithelial to mesenchymal transition", edge target
"epithelial_to_mesenchymal_transition"). -/
def phenotypeId (label : String) : String :=
  String.mk (label.data.map (fun c => if c = ' ' then '_' else c))

/-- The edge record merged into the store for a resource interaction. -/
def Interaction.toEdge (i : Interaction) : Edge :=
  ⟨i.source, i.target, i.effect, i.itype, i.refs⟩

/-- Node record for an identifier discovered in the resource (resource
identifiers are already canonical, spec §6; the model does not track the
accession of discovered nodes). -/
def mkNode (id : String) : NodeRec :=
  ⟨id, ""⟩

/-- Merge an interaction: create missing endpoint nodes implicitly and
merge the edge record (spec §4.2: nodes and edges found by the engine are
merged into the Graph Store). -/
def Graph.mergeInteraction (g : Graph) (i : Interaction) : Graph :=
  (((g.addNode (mkNode i.source)).addNode (mkNode i.target)).addEdgeRec i.toEdge)

/-- Merge a list of interactions left to right. -/
def Graph.mergeInteractions (g : Graph) (is : List Interaction) : Graph :=
  is.foldl Graph.mergeInteraction g

/-! ## Reciprocal Pathway Extension (RPE): `complete_connection`

Modelled from the spec (§4.2): for every pair of seed nodes, search the
filtered resource graph for a connecting path of length ≤ `max_len`,
breadth-first or depth-first, and merge every node and edge of each found
path into the Graph Store. -/

/-- The two traversal disciplines of `complete_connection` (spec §4.2). -/
inductive SearchMode where
  | dfs
  | bfs
  deriving DecidableEq, Repr

/-- One-step extensions of a reversed path (head is the path's end). -/
def extendPath (res : List Interaction) (f : Filters) : List String → List (List String)
  | [] => []
  | x :: rest => (successors res f x).map (fun y => y :: x :: rest)

/-- All one-step extensions of a frontier of reversed paths. -/
def stepPaths (res : List Interaction) (f : Filters) (ps : List (List String)) :
    List (List String) :=
  ps.flatMap (extendPath res f)

/-- `n`-fold frontier extension. -/
def iterStep (res : List Interaction) (f : Filters) :
    Nat → List (List String) → List (List String)
  | 0, ps => ps
  | n + 1, ps => iterStep res f n (stepPaths res f ps)

/-- Breadth-first search: inspect the frontier for a path ending at the
target, else extend every frontier path by one hop, spending one unit of
fuel per hop (spec §4.2: BFS returns the first path discovered at the
minimal depth, and no path is searched beyond `max_len` hops). -/
def bfsAux (res : List Interaction) (f : Filters) (b : String) :
    Nat → List (List String) → Option (List String)
  | 0, ps => ps.find? (fun p => p.head? == some b)
  | fuel + 1, ps =>
    match ps.find? (fun p => p.head? == some b) with
    | some p => some p
    | none => bfsAux res f b fuel (stepPaths res f ps)

/-- BFS for a path of at most `L` hops from `a` to `b`; returns the path
reversed (head is `b`). -/
def bfsSearch (res : List Interaction) (f : Filters) (a b : String) (L : Nat) :
    Option (List String) :=
  bfsAux res f b L [[a]]

/-- First successful result over a list of alternatives. -/
def firstSome : List α → (α → Option β) → Option β
  | [], _ => none
  | x :: xs, f =>
    match f x with
    | some b => some b
    | none => firstSome xs f

/-- Depth-first search: commit to the first path found along the first
successfully extended branch, within the depth bound (spec §4.2). -/
def dfsAux (res : List Interaction) (f : Filters) (b : String) :
    Nat → String → Option (List String)
  | 0, x => if x = b then some [x] else none
  | fuel + 1, x =>
    if x = b then some [x]
    else firstSome (successors res f x) (fun y => (dfsAux res f b fuel y).map (fun p => x :: p))

/-- The connecting path merged by `complete_connection` for the seed pair
`(a, b)` under bound `L` — forward order, from `a` to `b` (spec §4.2). -/
def connectingPath (mode : SearchMode) (res : List Interaction) (f : Filters)
    (L : Nat) (a b : String) : Option (List String) :=
  match mode with
  | .dfs => dfsAux res f b L a
  | .bfs => (bfsSearch res f a b L).map List.reverse

/-- A reversed path from `a` through the filtered resource graph (head is
the path's end). -/
def isRevPath (res : List Interaction) (f : Filters) (a : String) : List String → Bool
  | [] => false
  | [x] => x == a
  | y :: x :: rest => decide (y ∈ successors res f x) && isRevPath res f a (x :: rest)

/-- `a` reaches `b` by a directed path of exactly `n` hops in the filtered
resource graph. -/
def ReachIn (res : List Interaction) (f : Filters) (a b : String) (n : Nat) : Prop :=
  ∃ p, isRevPath res f a p = true ∧ p.head? = some b ∧ p.length = n + 1

/-- `d` is the true shortest-path distance from `a` to `b` in the filtered
resource graph. -/
def IsShortestDist (res : List Interaction) (f : Filters) (a b : String) (d : Nat) : Prop :=
  ReachIn res f a b d ∧ ∀ m, ReachIn res f a b m → d ≤ m

/-- The passing resource interactions for one ordered endpoint pair. -/
def candInteractions (res : List Interaction) (f : Filters) (x y : String) :
    List Interaction :=
  res.filter (fun i => passes f i && decide (i.source = x) && decide (i.target = y))

/-- The interaction merged for one hop of a found path: among the passing
resource interactions for the ordered pair, `connect_with_bias` prefers a
curated record as a tie-break, never a hard filter (spec §4.2). -/
def pickInteraction (res : List Interaction) (f : Filters) (bias : Bool)
    (x y : String) : Option Interaction :=
  (if bias then
    (candInteractions res f x y).filter (·.curated) ++
      (candInteractions res f x y).filter (fun i => !i.curated)
  else candInteractions res f x y).head?

/-- The edge records merged along a forward path. -/
def pathEdges (res : List Interaction) (f : Filters) (bias : Bool) :
    List String → List Edge
  | x :: y :: rest =>
    (match pickInteraction res f bias x y with
     | some i => [i.toEdge]
     | none => []) ++ pathEdges res f bias (y :: rest)
  | _ => []

/-- Merge all nodes and edges of a found forward path into the store. -/
def Graph.mergePath (g : Graph) (res : List Interaction) (f : Filters) (bias : Bool)
    (p : List String) : Graph :=
  (pathEdges res f bias p).foldl Graph.addEdgeRec
    ((p.map mkNode).foldl Graph.addNode g)

/-- Modelled from the spec: `complete_connection` (spec §4.2) — for every
pair of distinct current nodes, merge the connecting path found by the
selected traversal within `max_len` hops; a pair with no path found is a
silent no-op (spec §4.2, failure modes). -/
def Graph.completeConnection (g : Graph) (res : List Interaction) (f : Filters)
    (bias : Bool) (mode : SearchMode) (L : Nat) : Graph :=
  ((g.nodeIds.flatMap (fun a => g.nodeIds.map (fun b => (a, b)))).filter
      (fun ab => !(ab.1 == ab.2))).foldl
    (fun acc ab =>
      match connectingPath mode res f L ab.1 ab.2 with
      | some p => acc.mergePath res f bias p
      | none => acc) g

/-- Modelled from the spec: `connect_nodes` — merge every passing resource
interaction between two current nodes (README usage
`connect_nodes(only_signed=True, consensus_only=True)`). -/
def Graph.connectNodes (g : Graph) (res : List Interaction) (f : Filters) : Graph :=
  g.mergeInteractions
    (res.filter (fun i =>
      passes f i && decide (i.source ∈ g.nodeIds) && decide (i.target ∈ g.nodeIds)))

/-! ## Iterative Neighbor Expansion (INE): `connect_network_radially`

Modelled from the spec (§4.2): repeat `max_len` times: query the resource
for all direct neighbors (both directions) of every current node, filter,
and merge the new nodes and edges. -/

/-- The passing resource interactions incident (in either direction) to the
current node set. -/
def incidentInteractions (res : List Interaction) (f : Filters) (ids : List String) :
    List Interaction :=
  res.filter (fun i =>
    passes f i && (decide (i.source ∈ ids) || decide (i.target ∈ ids)))

/-- One radial iteration (spec §4.2, INE). -/
def Graph.radialStep (g : Graph) (res : List Interaction) (f : Filters) : Graph :=
  g.mergeInteractions (incidentInteractions res f g.nodeIds)

/-- Modelled from the spec: `connect_network_radially` with `max_len = k`
runs `k` radial iterations (spec §4.2, INE). -/
def Graph.connectRadially (g : Graph) (res : List Interaction) (f : Filters) :
    Nat → Graph
  | 0 => g
  | k + 1 => (g.radialStep res f).connectRadially res f k

/-- Undirected adjacency in the filtered resource graph (INE queries
neighbors in both directions, spec §4.2). -/
def UAdj (res : List Interaction) (f : Filters) (a b : String) : Prop :=
  ∃ i ∈ res, passes f i = true ∧
    ((i.source = a ∧ i.target = b) ∨ (i.source = b ∧ i.target = a))

/-- Undirected walks of a given hop count in the filtered resource graph. -/
inductive UWalk (res : List Interaction) (f : Filters) : String → String → Nat → Prop where
  | refl (a : String) : UWalk res f a a 0
  | step {a b c : String} {n : Nat} :
      UAdj res f a b → UWalk res f b c n → UWalk res f a c (n + 1)

/-- `x` lies within graph-distance `k` of the node set `S` in the filtered
resource graph. -/
def WithinDist (res : List Interaction) (f : Filters) (S : List String)
    (x : String) (k : Nat) : Prop :=
  ∃ s ∈ S, ∃ n ≤ k, UWalk res f s x n

/-! ## Phenotype attachment: `connect_genes_to_phenotype`

Modelled from the spec (§4.2): the genes annotated under the ontology term
form a virtual neighbor pool; passing interactions from current nodes to
pool members are found and, under `compress`, rewritten to terminate in the
single synthetic phenotype node while the pool-member nodes themselves are
not added.  Two behaviours are taken from the executed ontology notebook
committed in the repository rather than from the spec prose, which the
notebook output contradicts: (1) compression reconciles conflicting signed
effects for one source into a single `bimodal` record (row
`Q05397 → epithelial_to_mesenchymal_transition, bimodal` under
`only_signed=True`), and (2) a current node that is itself annotated with
the term additionally receives a direct record with provenance
"Gene Ontology" (row `P46531 → epithelial_to_mesenchymal_transition,
stimulation, Gene Ontology` next to the compressed BioGRID record for the
same pair). -/

/-- Effect reconciliation for a compressed phenotype edge: agreement keeps
the common sign, disagreement yields `bimodal` (observed in the ontology
notebook output). -/
def reconcileEffect (es : List Effect) : Effect :=
  if es.all (fun e => decide (e = .stimulation)) then .stimulation
  else if es.all (fun e => decide (e = .inhibition)) then .inhibition
  else .bimodal

/-- The passing interactions from current nodes into the phenotype pool. -/
def poolInteractions (g : Graph) (res : List Interaction) (onlySigned : Bool)
    (pool : List String) : List Interaction :=
  res.filter (fun i =>
    passes ⟨onlySigned, false⟩ i && decide (i.source ∈ g.nodeIds) &&
      decide (i.target ∈ pool))

/-- The compressed phenotype edge for one source node: aimed at the
synthetic phenotype node, with effect reconciliation over the source's
passing pool interactions and the union of their references. -/
def compressedEdgeFor (cands : List Interaction) (label : String) (s : String) : Edge :=
  ⟨s, phenotypeId label,
    reconcileEffect ((cands.filter (fun i => decide (i.source = s))).map (·.effect)), "",
    (cands.filter (fun i => decide (i.source = s))).flatMap (·.refs)⟩

/-- The compressed phenotype edges: one record per distinct source. -/
def compressedEdges (g : Graph) (res : List Interaction) (onlySigned : Bool)
    (pool : List String) (label : String) : List Edge :=
  (((poolInteractions g res onlySigned pool).map (·.source)).dedup).map
    (compressedEdgeFor (poolInteractions g res onlySigned pool) label)

/-- The direct ontology-annotation records: a current node that is itself a
pool member is linked to the phenotype node with provenance
"Gene Ontology" (observed in the ontology notebook output). -/
def directOntologyEdges (g : Graph) (pool : List String) (label : String) : List Edge :=
  (g.nodeIds.filter (fun x => decide (x ∈ pool))).map (fun x =>
    ⟨x, phenotypeId label, .stimulation, "", ["Gene Ontology"]⟩)

/-- Merge a list of edge records left to right. -/
def Graph.mergeEdges (g : Graph) (es : List Edge) : Graph :=
  es.foldl Graph.addEdgeRec g

/-- Modelled from the spec: `connect_genes_to_phenotype` (spec §4.2).
With `compress` the pool members are not added — only the synthetic
phenotype node and the aggregate edges survive; without `compress` the
passing pool interactions are merged as they are. -/
def Graph.connectGenesToPhenotype (g : Graph) (res : List Interaction)
    (pool : List String) (label : String) (onlySigned compress : Bool) : Graph :=
  if compress then
    ((g.addNode (mkNode (phenotypeId label))).mergeEdges
      (compressedEdges g res onlySigned pool label ++ directOntologyEdges g pool label))
  else
    g.mergeInteractions (poolInteractions g res onlySigned pool)

/-! ## Identifier canonicalization at construction

Modelled from the spec (§6): the identifier-translation collaborator maps
a supplied identifier to its canonical gene symbol and UniProt accession;
the Graph Store canonicalizes on node insertion.  Concrete rows are taken
from the node table of the tissue-mapping notebook, where the seed "FAK"
is stored as PTK2 / Q05397. -/

/-- The translation table of the identifier collaborator (rows observed in
the tissue-mapping notebook). -/
def idTable : List (String × NodeRec) :=
  [("SRC", ⟨"SRC", "P12931"⟩), ("NOTCH1", ⟨"NOTCH1", "P46531"⟩),
   ("FAK", ⟨"PTK2", "Q05397"⟩), ("PTK2", ⟨"PTK2", "Q05397"⟩),
   ("CDH1", ⟨"CDH1", "P12830"⟩), ("CDH2", ⟨"CDH2", "P19022"⟩),
   ("VIM", ⟨"VIM", "P08670"⟩), ("MAP4K4", ⟨"MAP4K4", "O95819"⟩),
   ("LATS1", ⟨"LATS1", "O95835"⟩), ("LATS2", ⟨"LATS2", "Q9NRM7"⟩),
   ("PTK2B", ⟨"PTK2B", "Q14289"⟩)]

/-- `to_canonical` (spec §6): resolve an identifier to its canonical node
record; `none` models the `UnresolvedIdentifier` failure. -/
def toCanonical (s : String) : Option NodeRec :=
  (idTable.find? (fun e => decide (e.1 = s))).map (·.2)

/-! ## History Manager

Modelled from the spec (§4.3, §9): a branching tree of immutable snapshots
kept as an arena indexed by sequence id, with parent-id links; the current
pointer is just an index. -/

/-- The error taxonomy (spec §7). -/
inductive NekoError where
  | invalidEdge
  | notFound
  | historyBoundary
  | ambiguousRedo
  | invalidSelector
  | unresolvedIdentifier
  deriving DecidableEq, Repr

/-- One snapshot of the arena: deep copy of the Graph Store plus parent
link and creation cause (spec §3, Snapshot). -/
structure SnapEntry where
  graph : Graph
  parent : Option Nat
  cause : String
  deriving DecidableEq, Repr

/-- The history tree: arena of snapshots plus the current index. -/
structure History where
  arena : List SnapEntry
  current : Nat
  deriving DecidableEq, Repr

/-- A fresh history holding only the root snapshot. -/
def History.init (g : Graph) : History :=
  ⟨[⟨g, none, "initial"⟩], 0⟩

/-- The contents of the current Snapshot. -/
def History.currentGraph (h : History) : Option Graph :=
  (h.arena.get? h.current).map (·.graph)

/-- Modelled from the spec: `commit` appends a new Snapshot as a child of
the current one and makes it current; an existing child is never touched,
the new Snapshot simply becomes an additional sibling (spec §4.3). -/
def History.commit (h : History) (g : Graph) (cause : String) : History :=
  ⟨h.arena ++ [⟨g, some h.current, cause⟩], h.arena.length⟩

/-- Modelled from the spec: `undo` moves the current pointer to the parent
Snapshot and reports the boundary at the root (spec §4.3). -/
def History.undo (h : History) : Except NekoError History :=
  match (h.arena.get? h.current).bind (·.parent) with
  | some p => .ok ⟨h.arena, p⟩
  | none => .error .historyBoundary

/-- The children of snapshot `i` in the tree. -/
def History.childrenOf (h : History) (i : Nat) : List Nat :=
  (List.range h.arena.length).filter
    (fun j => decide ((h.arena.get? j).bind (·.parent) = some i))

/-- Modelled from the spec: `redo` moves to a child Snapshot; with several
children an explicit branch selector is required and `redo` fails rather
than guess (spec §4.3). -/
def History.redo (h : History) (sel : Option Nat) : Except NekoError History :=
  match sel with
  | some j =>
    if j ∈ h.childrenOf h.current then .ok ⟨h.arena, j⟩ else .error .invalidSelector
  | none =>
    match h.childrenOf h.current with
    | [] => .error .historyBoundary
    | [j] => .ok ⟨h.arena, j⟩
    | _ => .error .ambiguousRedo

/-! ## The Network: Graph Store plus History -/

/-- Modelled from the spec: a Network owns exactly one Graph Store and a
History tree (spec §3). -/
structure Network where
  graph : Graph
  history : History
  deriving DecidableEq, Repr

/-- The mutating operations of the Connection Engine and Graph Store
(spec §4.1, §4.2). -/
inductive Op where
  | addNode (id : String)
  | removeNode (id : String)
  | addEdge (e : Edge)
  | addEdges (es : List Edge)
  | connectNodes (res : List Interaction) (f : Filters)
  | completeConn (res : List Interaction) (f : Filters) (bias : Bool)
      (mode : SearchMode) (L : Nat)
  | radial (res : List Interaction) (f : Filters) (k : Nat)
  | phenotype (res : List Interaction) (pool : List String) (label : String)
      (onlySigned compress : Bool)

/-- The operation name recorded as the snapshot's creation cause. -/
def Op.cause : Op → String
  | .addNode _ => "add_node"
  | .removeNode _ => "remove_node"
  | .addEdge _ => "add_edge"
  | .addEdges _ => "add_edges"
  | .connectNodes _ _ => "connect_nodes"
  | .completeConn _ _ _ _ _ => "complete_connection"
  | .radial _ _ _ => "connect_network_radially"
  | .phenotype _ _ _ _ _ => "connect_genes_to_phenotype"

/-- Modelled from the spec: the Graph-Store part of each operation.
`add_node` canonicalizes the supplied identifier on insertion through the
translation collaborator, and an unresolvable identifier surfaces as
`UnresolvedIdentifier` (spec §6); `remove_node` reports an explicit
not-found signal (spec §9 leaves the
policy open and asks implementers to pick one); `add_edge` fails with
`InvalidEdge` when an endpoint is unknown, implicit creation being
disabled for the direct edge operations (spec §4.1); `add_edges` validates
every record before merging any, so the whole batch commits or none of it
does (spec §7). -/
def applyGraphOp (g : Graph) : Op → Except NekoError Graph
  | .addNode id =>
    match toCanonical id with
    | some n => .ok (g.addNode n)
    | none => .error .unresolvedIdentifier
  | .removeNode id =>
    if id ∈ g.nodeIds then
      .ok ⟨g.nodes.filter (fun n => !(n.genesymbol == id)),
           g.edges.filter (fun e => !(e.source == id) && !(e.target == id))⟩
    else .error .notFound
  | .addEdge e =>
    if e.source ∈ g.nodeIds ∧ e.target ∈ g.nodeIds then .ok (g.addEdgeRec e)
    else .error .invalidEdge
  | .addEdges es =>
    if ∀ e ∈ es, e.source ∈ g.nodeIds ∧ e.target ∈ g.nodeIds then .ok (g.mergeEdges es)
    else .error .invalidEdge
  | .connectNodes res f => .ok (g.connectNodes res f)
  | .completeConn res f bias mode L => .ok (g.completeConnection res f bias mode L)
  | .radial res f k => .ok (g.connectRadially res f k)
  | .phenotype res pool label onlySigned compress =>
    .ok (g.connectGenesToPhenotype res pool label onlySigned compress)

/-- Modelled from the spec: every successful mutating operation first
commits its full node/edge merges and then captures a snapshot; a failing
operation returns the error and leaves the Network untouched at its
last-committed Snapshot (spec §4.3, §7). -/
def applyOp (net : Network) (op : Op) : Network × Option NekoError :=
  match applyGraphOp net.graph op with
  | .ok g' => (⟨g', net.history.commit g' op.cause⟩, none)
  | .error e => (net, some e)

/-! ## Comparison Module

Modelled from the spec (§4.4) and the comparison notebook output:
`compare_networks` classifies node identifiers and (source, target) pairs
into "Unique to Network 1", "Unique to Network 2" and "Common". -/

/-- Three-way set-difference classification of one element. -/
def classify [DecidableEq α] (A B : List α) (x : α) : String :=
  if x ∈ A then (if x ∈ B then "Common" else "Unique to Network 1")
  else "Unique to Network 2"

/-- The (source, target) pairs of a store, forgetting effect and
provenance (spec §4.4). -/
def pairsOf (g : Graph) : List (String × String) :=
  g.edges.map (fun e => (e.source, e.target))

/-- Node-level comparison: every identifier of either network, classified. -/
def nodeComparison (gA gB : Graph) : List (String × String) :=
  ((gA.nodeIds ++ gB.nodeIds).dedup).map (fun x =>
    (x, classify gA.nodeIds gB.nodeIds x))

/-- Edge-level comparison over (source, target) ordered pairs. -/
def interactionComparison (gA gB : Graph) : List ((String × String) × String) :=
  ((pairsOf gA ++ pairsOf gB).dedup).map (fun p =>
    (p, classify (pairsOf gA) (pairsOf gB) p))

/-- Modelled from the spec: `compare_networks` returns the edge and node
comparisons, a pure function of the two stores (spec §4.4). -/
def compareNetworks (netA netB : Network) :
    List ((String × String) × String) × List (String × String) :=
  (interactionComparison netA.graph netB.graph,
   nodeComparison netA.graph netB.graph)

/-! ## Network construction over canonicalized seeds -/

/-- Insert one seed after canonicalization; an unresolvable seed is
skipped with partial-success semantics (spec §6, §7). -/
def canonStep (g : Graph) (s : String) : Graph :=
  match toCanonical s with
  | some n => g.addNode n
  | none => g

/-- Modelled from the spec: Network construction canonicalizes every seed
on insertion (spec §6). -/
def mkGraph (seeds : List String) : Graph :=
  seeds.foldl canonStep ⟨[], []⟩

/-- A fresh Network over canonicalized seeds, with the root snapshot. -/
def mkNetwork (seeds : List String) : Network :=
  ⟨mkGraph seeds, History.init (mkGraph seeds)⟩

/-- Number of edge records of the store for a given ordered endpoint pair. -/
def pairCount (g : Graph) (s t : String) : Nat :=
  (g.edges.filter (fun e => decide (e.source = s ∧ e.target = t))).length

/-! ## Concrete scenarios

Small concrete inputs used to instantiate the theorems, shaped after the
executed ontology notebook (PTK2 / Q05397 with conflicting signed
interactions towards two phenotype-pool genes) and the worked example of
the spec (§8: seeds {A, B}, resource {A→C stimulation, C→B inhibition},
both consensus). -/

/-- A store holding the single node Q05397 (PTK2). -/
def emtGraph : Graph :=
  ⟨[⟨"Q05397", "Q05397"⟩], []⟩

/-- Two signed consensus interactions from Q05397 into the phenotype pool,
one stimulating and one inhibiting. -/
def emtRes : List Interaction :=
  [⟨"Q05397", "G1", .stimulation, "", true, true, ["r1"]⟩,
   ⟨"Q05397", "G2", .inhibition, "", true, true, ["r2"]⟩]

/-- The phenotype label used by the ontology notebook. -/
def emtLabel : String :=
  "epithelial to mesenchymal transition"

/-- The two-seed store of the spec's worked example (§8). -/
def abGraph : Graph :=
  ⟨[⟨"A", "A"⟩, ⟨"B", "B"⟩], []⟩

/-- The resource of the spec's worked example (§8): A→C (stimulation,
consensus) and C→B (inhibition, consensus). -/
def abRes : List Interaction :=
  [⟨"A", "C", .stimulation, "", true, true, []⟩,
   ⟨"C", "B", .inhibition, "", true, true, []⟩]

/-- Both filters on, as in the worked example. -/
def strictFilters : Filters :=
  ⟨true, true⟩

/-- First network of the comparison scenario of the spec (§8): nodes
{A, B, C}. -/
def cmpNet1 : Network :=
  ⟨⟨[⟨"A", "A"⟩, ⟨"B", "B"⟩, ⟨"C", "C"⟩], []⟩,
   History.init ⟨[⟨"A", "A"⟩, ⟨"B", "B"⟩, ⟨"C", "C"⟩], []⟩⟩

/-- Second network of the comparison scenario of the spec (§8): nodes
{B, C, D}. -/
def cmpNet2 : Network :=
  ⟨⟨[⟨"B", "B"⟩, ⟨"C", "C"⟩, ⟨"D", "D"⟩], []⟩,
   History.init ⟨[⟨"B", "B"⟩, ⟨"C", "C"⟩, ⟨"D", "D"⟩], []⟩⟩

/-- A two-snapshot history: the root and one committed child, which is
current. -/
def histSample : History :=
  ⟨[⟨⟨[], []⟩, none, "initial"⟩, ⟨⟨[⟨"A", "A"⟩], []⟩, some 0, "add_node"⟩], 1⟩

/-! ## Graph Store basics -/

theorem Graph.edges_addNode (g : Graph) (n : NodeRec) :
    (g.addNode n).edges = g.edges := by
  unfold Graph.addNode; split <;> rfl

theorem Graph.nodes_addEdgeRec (g : Graph) (e : Edge) :
    (g.addEdgeRec e).nodes = g.nodes := by
  unfold Graph.addEdgeRec; split <;> rfl

theorem Graph.nodeIds_addEdgeRec (g : Graph) (e : Edge) :
    (g.addEdgeRec e).nodeIds = g.nodeIds := by
  unfold Graph.nodeIds; rw [Graph.nodes_addEdgeRec]

theorem Graph.mem_nodeIds_addNode {g : Graph} {n : NodeRec} {x : String} :
    x ∈ (g.addNode n).nodeIds ↔ x ∈ g.nodeIds ∨ x = n.genesymbol := by
  unfold Graph.addNode
  split
  · next h =>
    constructor
    · exact Or.inl
    · rintro (hx | rfl)
      · exact hx
      · exact h
  · next h =>
    simp [Graph.nodeIds, List.map_append]

theorem Graph.mem_nodes_addNode {g : Graph} {n m : NodeRec} :
    m ∈ (g.addNode n).nodes → m ∈ g.nodes ∨ m = n := by
  unfold Graph.addNode
  split
  · exact Or.inl
  · intro h
    rcases List.mem_append.1 h with h | h
    · exact Or.inl h
    · exact Or.inr (List.mem_singleton.1 h)

theorem Graph.mem_edges_addEdgeRec {g : Graph} {e e' : Edge} :
    e ∈ (g.addEdgeRec e').edges ↔ e ∈ g.edges ∨ e = e' := by
  unfold Graph.addEdgeRec
  split
  · next h =>
    constructor
    · exact Or.inl
    · rintro (hx | rfl)
      · exact hx
      · exact h
  · next h =>
    simp [List.mem_append]

theorem Graph.nodes_mergeEdges (es : List Edge) : ∀ (g : Graph),
    (g.mergeEdges es).nodes = g.nodes := by
  induction es with
  | nil => intro g; rfl
  | cons e es ih =>
    intro g
    show ((g.addEdgeRec e).mergeEdges es).nodes = g.nodes
    rw [ih, Graph.nodes_addEdgeRec]

theorem Graph.mem_edges_mergeEdges {es : List Edge} : ∀ {g : Graph} {e : Edge},
    e ∈ (g.mergeEdges es).edges ↔ e ∈ g.edges ∨ e ∈ es := by
  induction es with
  | nil => intro g e; simp [Graph.mergeEdges]
  | cons e' es ih =>
    intro g e
    show e ∈ ((g.addEdgeRec e').mergeEdges es).edges ↔ _
    rw [ih, Graph.mem_edges_addEdgeRec]
    simp [List.mem_cons]
    tauto

theorem Graph.mergeEdges_of_mem (es : List Edge) : ∀ (g : Graph),
    (∀ e ∈ es, e ∈ g.edges) → g.mergeEdges es = g := by
  induction es with
  | nil => intro g _; rfl
  | cons e' es ih =>
    intro g h
    show (g.addEdgeRec e').mergeEdges es = g
    have he : g.addEdgeRec e' = g := by
      unfold Graph.addEdgeRec
      rw [if_pos (h e' (List.mem_cons_self _ _))]
    rw [he]
    exact ih g (fun e he => h e (List.mem_cons_of_mem _ he))

/-! ## Claim C9 -/

/-- Claim C9: every edge merged by `connect_genes_to_phenotype` with
`compress = True` that was not already in the store targets the synthetic
phenotype identifier, which is the phenotype label with each space
replaced by an underscore — not the raw label. -/
theorem phenotype_label_underscored :
    ∀ (g : Graph) (res : List Interaction) (pool : List String) (label : String)
      (onlySigned : Bool) (e : Edge),
      e ∈ (g.connectGenesToPhenotype res pool label onlySigned true).edges →
      e ∈ g.edges ∨
        e.target = String.mk (label.data.map (fun c => if c = ' ' then '_' else c)) := by
  intro g res pool label onlySigned e he
  unfold Graph.connectGenesToPhenotype at he
  rw [if_pos rfl] at he
  rw [Graph.mem_edges_mergeEdges, Graph.edges_addNode] at he
  rcases he with he | he
  · exact Or.inl he
  · right
    rcases List.mem_append.1 he with he | he
    · unfold compressedEdges at he
      rcases List.mem_map.1 he with ⟨s, _, rfl⟩
      rfl
    · unfold directOntologyEdges at he
      rcases List.mem_map.1 he with ⟨s, _, rfl⟩
      rfl

/-- Concrete instance of C9, with the label of the ontology notebook:
the merged edge targets "epithelial_to_mesenchymal_transition". -/
theorem phenotype_label_underscored_witness :
    (⟨"Q05397", "epithelial_to_mesenchymal_transition", .bimodal, "", ["r1", "r2"]⟩ : Edge) ∈
        (emtGraph.connectGenesToPhenotype emtRes ["G1", "G2"] emtLabel true true).edges ∧
      ((⟨"Q05397", "epithelial_to_mesenchymal_transition", .bimodal, "", ["r1", "r2"]⟩ : Edge) ∈
          emtGraph.edges ∨
        (⟨"Q05397", "epithelial_to_mesenchymal_transition", .bimodal, "", ["r1", "r2"]⟩ : Edge).target =
          String.mk (emtLabel.data.map (fun c => if c = ' ' then '_' else c))) :=
  ⟨by decide, phenotype_label_underscored emtGraph emtRes ["G1", "G2"] emtLabel true _ (by decide)⟩

/-! ## Claim C10 -/

/-- Claim C10: identifiers supplied at Network construction are
canonicalized before insertion: every stored node is the canonical record
of some seed (canonical symbol and UniProt accession), every resolvable
seed's canonical symbol is present, and an alias that is not the canonical
symbol of any seed does not appear in the node set. -/
theorem canonStep_mono {g : Graph} {x : String} (s : String) (hx : x ∈ g.nodeIds) :
    x ∈ (canonStep g s).nodeIds := by
  unfold canonStep
  cases toCanonical s with
  | some n => exact Graph.mem_nodeIds_addNode.2 (Or.inl hx)
  | none => exact hx

theorem canonFold_mono (l : List String) : ∀ (g : Graph) (x : String), x ∈ g.nodeIds →
    x ∈ (l.foldl canonStep g).nodeIds := by
  induction l with
  | nil => intro g x hx; exact hx
  | cons s l ih =>
    intro g x hx
    exact ih _ _ (canonStep_mono s hx)

theorem canonFold_sound (l : List String) : ∀ (g : Graph) (x : NodeRec),
    x ∈ (l.foldl canonStep g).nodes →
    x ∈ g.nodes ∨ ∃ s ∈ l, toCanonical s = some x := by
  induction l with
  | nil => intro g x hx; exact Or.inl hx
  | cons s l ih =>
    intro g x hx
    rcases ih (canonStep g s) x hx with h | ⟨s', hs', hc⟩
    · unfold canonStep at h
      cases hcs : toCanonical s with
      | some n =>
        rw [hcs] at h
        rcases Graph.mem_nodes_addNode h with h | rfl
        · exact Or.inl h
        · exact Or.inr ⟨s, List.mem_cons_self _ _, hcs⟩
      | none => rw [hcs] at h; exact Or.inl h
    · exact Or.inr ⟨s', List.mem_cons_of_mem _ hs', hc⟩

theorem canonFold_complete (l : List String) : ∀ (g : Graph) (s : String) (n : NodeRec),
    s ∈ l → toCanonical s = some n →
    n.genesymbol ∈ (l.foldl canonStep g).nodeIds := by
  induction l with
  | nil => intro g s n h; simp at h
  | cons s' l ih =>
    intro g s n hs hn
    rcases List.mem_cons.1 hs with rfl | hs
    · show n.genesymbol ∈ (l.foldl canonStep (canonStep g s)).nodeIds
      refine canonFold_mono l _ _ ?_
      unfold canonStep
      rw [hn]
      exact Graph.mem_nodeIds_addNode.2 (Or.inr rfl)
    · exact ih (canonStep g s') s n hs hn

/-- Claim C10: identifiers supplied at Network construction or via
`add_node` are canonicalized before insertion: every stored node is the
canonical record of some seed (canonical symbol and UniProt accession),
every resolvable seed's canonical symbol is present, and an alias that is
not the canonical symbol of any seed does not appear in the node set;
likewise a successful `add_node` stores only the canonical record of the
supplied identifier, makes its canonical symbol present, and never
introduces an alias that is not the record's canonical symbol. -/
theorem seeds_canonicalized :
    ∀ (seeds : List String) (al : String),
      (∀ x ∈ (mkNetwork seeds).graph.nodes, ∃ s ∈ seeds, toCanonical s = some x) ∧
      (∀ s ∈ seeds, ∀ n, toCanonical s = some n →
        n.genesymbol ∈ (mkNetwork seeds).graph.nodeIds) ∧
      ((∀ s ∈ seeds, ∀ n, toCanonical s = some n → n.genesymbol ≠ al) →
        al ∉ (mkNetwork seeds).graph.nodeIds) ∧
      (∀ (net : Network) (id : String) (net' : Network),
        applyOp net (.addNode id) = (net', none) →
        (∀ x ∈ net'.graph.nodes, x ∈ net.graph.nodes ∨ toCanonical id = some x) ∧
        (∀ n, toCanonical id = some n → n.genesymbol ∈ net'.graph.nodeIds) ∧
        ((∀ n, toCanonical id = some n → n.genesymbol ≠ al) →
          al ∉ net.graph.nodeIds → al ∉ net'.graph.nodeIds)) := by
  intro seeds al
  refine ⟨?_, ?_, ?_, ?_⟩
  · intro x hx
    rcases canonFold_sound seeds ⟨[], []⟩ x hx with h | h
    · simp at h
    · exact h
  · intro s hs n hn
    exact canonFold_complete seeds ⟨[], []⟩ s n hs hn
  · intro hal hmem
    unfold mkNetwork mkGraph Graph.nodeIds at hmem
    rcases List.mem_map.1 hmem with ⟨x, hx, hxa⟩
    rcases canonFold_sound seeds ⟨[], []⟩ x hx with h | ⟨s, hs, hc⟩
    · simp at h
    · exact hal s hs x hc hxa
  · intro net id net' hap
    unfold applyOp at hap
    cases hc : toCanonical id with
    | some n =>
      rw [show applyGraphOp net.graph (.addNode id) =
        (match toCanonical id with
         | some n => Except.ok (net.graph.addNode n)
         | none => Except.error NekoError.unresolvedIdentifier) from rfl, hc] at hap
      have hnet' : (⟨net.graph.addNode n,
          net.history.commit (net.graph.addNode n) (Op.addNode id).cause⟩ : Network) = net' :=
        congrArg Prod.fst hap
      refine ⟨?_, ?_, ?_⟩
      · intro x hx
        rw [← hnet'] at hx
        rcases Graph.mem_nodes_addNode hx with h | rfl
        · exact Or.inl h
        · exact Or.inr rfl
      · intro n' hn'
        cases hn'
        rw [← hnet']
        exact Graph.mem_nodeIds_addNode.2 (Or.inr rfl)
      · intro hal hold hnew
        rw [← hnet'] at hnew
        rcases Graph.mem_nodeIds_addNode.1 hnew with h | h
        · exact hold h
        · exact hal n rfl h.symm
    | none =>
      rw [show applyGraphOp net.graph (.addNode id) =
        (match toCanonical id with
         | some n => Except.ok (net.graph.addNode n)
         | none => Except.error NekoError.unresolvedIdentifier) from rfl, hc] at hap
      have : (some NekoError.unresolvedIdentifier : Option NekoError) = none :=
        congrArg Prod.snd hap
      exact absurd this (by simp)

/-- Concrete instance of C10, with the seeds of the tissue-mapping
notebook: the alias "FAK" is stored as PTK2 / Q05397 and "FAK" itself does
not appear in the node set. -/
theorem seeds_canonicalized_witness :
    (∀ s ∈ ["SRC", "NOTCH1", "FAK"], ∀ n, toCanonical s = some n → n.genesymbol ≠ "FAK") ∧
      "FAK" ∉ (mkNetwork ["SRC", "NOTCH1", "FAK"]).graph.nodeIds ∧
      (⟨"PTK2", "Q05397"⟩ : NodeRec) ∈ (mkNetwork ["SRC", "NOTCH1", "FAK"]).graph.nodes ∧
      "FAK" ∉ (applyOp (mkNetwork ["SRC"]) (.addNode "FAK")).1.graph.nodeIds ∧
      "PTK2" ∈ (applyOp (mkNetwork ["SRC"]) (.addNode "FAK")).1.graph.nodeIds :=
  ⟨by decide, (seeds_canonicalized ["SRC", "NOTCH1", "FAK"] "FAK").2.2.1 (by decide),
   by decide,
   ((seeds_canonicalized ["SRC"] "FAK").2.2.2 (mkNetwork ["SRC"]) "FAK"
       (applyOp (mkNetwork ["SRC"]) (.addNode "FAK")).1 (by decide)).2.2
     (by decide) (by decide),
   ((seeds_canonicalized ["SRC"] "FAK").2.2.2 (mkNetwork ["SRC"]) "FAK"
       (applyOp (mkNetwork ["SRC"]) (.addNode "FAK")).1 (by decide)).2.1
     ⟨"PTK2", "Q05397"⟩ (by decide)⟩

/-! ## Claim C7 -/

theorem mem_classMap [DecidableEq α] {A B : List α} {x : α} {c : String} :
    (x, c) ∈ ((A ++ B).dedup).map (fun y => (y, classify A B y)) ↔
      ((x ∈ A ∨ x ∈ B) ∧ c = classify A B x) := by
  simp only [List.mem_map, List.mem_dedup, List.mem_append, Prod.mk.injEq]
  constructor
  · rintro ⟨y, hy, rfl, rfl⟩
    exact ⟨hy, rfl⟩
  · rintro ⟨hx, rfl⟩
    exact ⟨x, hx, rfl, rfl⟩

theorem classify_congr [DecidableEq α] {A A' B B' : List α}
    (hA : ∀ y, y ∈ A ↔ y ∈ A') (hB : ∀ y, y ∈ B ↔ y ∈ B') (x : α) :
    classify A B x = classify A' B' x := by
  by_cases h1 : x ∈ A' <;> by_cases h2 : x ∈ B' <;>
    simp [classify, hA x, hB x, h1, h2]

theorem nodup_classMap [DecidableEq α] (A B : List α) :
    ((((A ++ B).dedup).map (fun y => (y, classify A B y))).map Prod.fst).Nodup := by
  rw [List.map_map]
  have : (Prod.fst ∘ fun y => (y, classify A B y)) = id := rfl
  rw [this, List.map_id]
  exact List.nodup_dedup _

theorem classify_eq_iff [DecidableEq α] (A B : List α) (x : α) :
    (classify A B x = "Common" ↔ x ∈ A ∧ x ∈ B) ∧
      (classify A B x = "Unique to Network 1" ↔ x ∈ A ∧ x ∉ B) ∧
      ((x ∈ A ∨ x ∈ B) →
        (classify A B x = "Unique to Network 2" ↔ x ∉ A ∧ x ∈ B)) := by
  by_cases h1 : x ∈ A <;> by_cases h2 : x ∈ B <;>
    simp [classify, h1, h2]

/-- Claim C7: `compare_networks` classifies every identifier appearing in
either node set, exactly once, into one of {unique to A, unique to B,
common}; it classifies (source, target) ordered pairs the same way, two
edges being common iff endpoints and direction match regardless of effect
or provenance; and the classification is a pure function of the two input
node/pair sets. -/
theorem compare_networks_classification :
    ∀ (netA netB : Network),
      (∀ x c, (x, c) ∈ (compareNetworks netA netB).2 ↔
        ((x ∈ netA.graph.nodeIds ∨ x ∈ netB.graph.nodeIds) ∧
          c = classify netA.graph.nodeIds netB.graph.nodeIds x)) ∧
      ((compareNetworks netA netB).2.map Prod.fst).Nodup ∧
      (∀ x, (classify netA.graph.nodeIds netB.graph.nodeIds x = "Common" ↔
          x ∈ netA.graph.nodeIds ∧ x ∈ netB.graph.nodeIds) ∧
        (classify netA.graph.nodeIds netB.graph.nodeIds x = "Unique to Network 1" ↔
          x ∈ netA.graph.nodeIds ∧ x ∉ netB.graph.nodeIds) ∧
        ((x ∈ netA.graph.nodeIds ∨ x ∈ netB.graph.nodeIds) →
          (classify netA.graph.nodeIds netB.graph.nodeIds x = "Unique to Network 2" ↔
            x ∉ netA.graph.nodeIds ∧ x ∈ netB.graph.nodeIds))) ∧
      (∀ pr c, (pr, c) ∈ (compareNetworks netA netB).1 ↔
        ((pr ∈ pairsOf netA.graph ∨ pr ∈ pairsOf netB.graph) ∧
          c = classify (pairsOf netA.graph) (pairsOf netB.graph) pr)) ∧
      ((compareNetworks netA netB).1.map Prod.fst).Nodup ∧
      (∀ pr, pr ∈ pairsOf netA.graph ↔
        ∃ e ∈ netA.graph.edges, e.source = pr.1 ∧ e.target = pr.2) ∧
      (∀ (netA' netB' : Network),
        (∀ x, x ∈ netA.graph.nodeIds ↔ x ∈ netA'.graph.nodeIds) →
        (∀ x, x ∈ netB.graph.nodeIds ↔ x ∈ netB'.graph.nodeIds) →
        ∀ x c, (x, c) ∈ (compareNetworks netA netB).2 ↔
          (x, c) ∈ (compareNetworks netA' netB').2) := by
  intro netA netB
  refine ⟨?_, ?_, ?_, ?_, ?_, ?_, ?_⟩
  · intro x c
    exact mem_classMap
  · exact nodup_classMap _ _
  · intro x
    exact classify_eq_iff _ _ x
  · intro pr c
    exact mem_classMap
  · exact nodup_classMap _ _
  · intro pr
    simp [pairsOf, List.mem_map, Prod.ext_iff]
  · intro netA' netB' hA hB x c
    rw [show (compareNetworks netA netB).2 = nodeComparison netA.graph netB.graph from rfl,
      show (compareNetworks netA' netB').2 = nodeComparison netA'.graph netB'.graph from rfl]
    unfold nodeComparison
    rw [mem_classMap, mem_classMap]
    constructor
    · rintro ⟨hx, rfl⟩
      refine ⟨?_, ?_⟩
      · rcases hx with h | h
        · exact Or.inl ((hA x).1 h)
        · exact Or.inr ((hB x).1 h)
      · exact classify_congr hA hB x
    · rintro ⟨hx, rfl⟩
      refine ⟨?_, ?_⟩
      · rcases hx with h | h
        · exact Or.inl ((hA x).2 h)
        · exact Or.inr ((hB x).2 h)
      · exact (classify_congr hA hB x).symm

/-- Concrete instance of C7, with the comparison scenario of the spec
(§8): A is unique to Network 1, D unique to Network 2, B common. -/
theorem compare_networks_classification_witness :
    ("A", "Unique to Network 1") ∈ (compareNetworks cmpNet1 cmpNet2).2 ∧
      ("D", "Unique to Network 2") ∈ (compareNetworks cmpNet1 cmpNet2).2 ∧
      ("B", "Common") ∈ (compareNetworks cmpNet1 cmpNet2).2 :=
  ⟨((compare_networks_classification cmpNet1 cmpNet2).1 "A" _).2 (by decide),
   ((compare_networks_classification cmpNet1 cmpNet2).1 "D" _).2 (by decide),
   ((compare_networks_classification cmpNet1 cmpNet2).1 "B" _).2 (by decide)⟩

/-! ## Claim C6 -/

/-- Claim C6: from any non-root history, `undo()` followed by `redo()`
selecting the child just left restores exactly the Snapshot that was
current before `undo()`; and committing a mutation after `undo()` creates
a new child of the current Snapshot while every pre-existing Snapshot
(in particular the sibling branch and its descendants) is untouched. -/
theorem undo_redo_roundtrip_and_branching :
    ∀ (h h' : History) (g : Graph) (c : String),
      h.undo = .ok h' →
      h'.redo (some h.current) = .ok h ∧
        (∀ h'', h'.redo (some h.current) = .ok h'' →
          h''.currentGraph = h.currentGraph) ∧
        (h'.commit g c).arena.length = h.arena.length + 1 ∧
        (∀ i, i < h.arena.length → (h'.commit g c).arena.get? i = h.arena.get? i) ∧
        (h'.commit g c).arena.get? h.arena.length = some ⟨g, some h'.current, c⟩ ∧
        (h'.commit g c).current = h.arena.length := by
  intro h h' g c hu
  unfold History.undo at hu
  split at hu
  case h_2 => exact absurd hu (by simp)
  case h_1 p heq =>
    have hh' : h' = ⟨h.arena, p⟩ := by
      cases hu
      rfl
    rcases Option.bind_eq_some.1 heq with ⟨entry, hget, hpar⟩
    have hlt : h.current < h.arena.length := by
      rcases List.get?_eq_some.1 hget with ⟨hcl, _⟩
      exact hcl
    have hmem : h.current ∈ h'.childrenOf h'.current := by
      subst hh'
      refine List.mem_filter.2 ⟨List.mem_range.2 hlt, ?_⟩
      simpa using heq
    have hredo : h'.redo (some h.current) = .ok h := by
      show (if h.current ∈ h'.childrenOf h'.current then
        Except.ok (⟨h'.arena, h.current⟩ : History)
        else Except.error NekoError.invalidSelector) = .ok h
      rw [if_pos hmem]
      subst hh'
      rfl
    refine ⟨hredo, ?_, ?_, ?_, ?_, ?_⟩
    · intro h'' h2
      rw [hredo] at h2
      cases h2
      rfl
    · subst hh'
      simp [History.commit]
    · intro i hi
      subst hh'
      show (h.arena ++ [_]).get? i = h.arena.get? i
      exact List.get?_append hi
    · subst hh'
      exact List.get?_concat_length _ _
    · subst hh'
      rfl

/-- Concrete instance of C6 on the two-snapshot history. -/
theorem undo_redo_roundtrip_and_branching_witness :
    histSample.undo = .ok ⟨histSample.arena, 0⟩ ∧
      (⟨histSample.arena, 0⟩ : History).redo (some histSample.current) = .ok histSample :=
  ⟨by rfl,
   (undo_redo_roundtrip_and_branching histSample ⟨histSample.arena, 0⟩ ⟨[], []⟩ "x"
     (by rfl)).1⟩

/-! ## Claim C1 -/

theorem History.currentGraph_commit (h : History) (g : Graph) (c : String) :
    (h.commit g c).currentGraph = some g := by
  unfold History.commit History.currentGraph
  rw [show (⟨h.arena ++ [⟨g, some h.current, c⟩], h.arena.length⟩ : History).arena =
    h.arena ++ [⟨g, some h.current, c⟩] from rfl]
  rw [show (⟨h.arena ++ [⟨g, some h.current, c⟩], h.arena.length⟩ : History).current =
    h.arena.length from rfl]
  rw [List.get?_concat_length]
  rfl

/-- Claim C1: after every successful mutating operation — add/remove node
or edge, any connection or expansion call — the node and edge sets of the
Network's Graph Store equal the contents of the History Manager's current
Snapshot. -/
theorem graph_store_matches_current_snapshot :
    ∀ (net : Network) (op : Op) (net' : Network),
      applyOp net op = (net', none) →
      net'.history.currentGraph = some net'.graph := by
  intro net op net' h
  unfold applyOp at h
  cases hg : applyGraphOp net.graph op with
  | ok g' =>
    rw [hg] at h
    have h1 : (⟨g', net.history.commit g' op.cause⟩ : Network) = net' :=
      congrArg Prod.fst h
    rw [← h1]
    exact History.currentGraph_commit _ _ _
  | error e =>
    rw [hg] at h
    have h2 : (some e : Option NekoError) = none := congrArg Prod.snd h
    exact absurd h2 (by simp)

/-- Concrete instance of C1: adding a node to a fresh network commits a
snapshot whose contents are the new store. -/
theorem graph_store_matches_current_snapshot_witness :
    applyOp (mkNetwork ["SRC"]) (.addNode "NOTCH1") =
        ((applyOp (mkNetwork ["SRC"]) (.addNode "NOTCH1")).1, none) ∧
      (applyOp (mkNetwork ["SRC"]) (.addNode "NOTCH1")).1.history.currentGraph =
        some (applyOp (mkNetwork ["SRC"]) (.addNode "NOTCH1")).1.graph :=
  ⟨by decide,
   graph_store_matches_current_snapshot (mkNetwork ["SRC"]) (.addNode "NOTCH1") _
     (by decide)⟩

/-! ## Claim C8 -/

/-- Claim C8: an operation that fails with a fatal error leaves the
Network — Graph Store and History — exactly as it was, at its
last-committed Snapshot; in particular a batch edge merge commits all of
its records or none, failing only when some record is invalid against the
pre-operation store. -/
theorem failed_op_leaves_last_snapshot :
    ∀ (net : Network) (op : Op) (err : NekoError),
      (applyOp net op).2 = some err →
      (applyOp net op).1 = net ∧
        ∀ (es : List Edge), op = .addEdges es →
          ∃ e ∈ es, ¬(e.source ∈ net.graph.nodeIds ∧ e.target ∈ net.graph.nodeIds) := by
  intro net op err h
  cases hg : applyGraphOp net.graph op with
  | ok g' =>
    unfold applyOp at h
    rw [hg] at h
    exact absurd h (by simp)
  | error e =>
    constructor
    · unfold applyOp
      rw [hg]
    · rintro es rfl
      rw [show applyGraphOp net.graph (.addEdges es) =
        (if ∀ e ∈ es, e.source ∈ net.graph.nodeIds ∧ e.target ∈ net.graph.nodeIds then
          Except.ok (net.graph.mergeEdges es)
        else Except.error NekoError.invalidEdge) from rfl] at hg
      split at hg
      · exact absurd hg (by simp)
      · next hcond =>
        push_neg at hcond
        rcases hcond with ⟨e', he', hbad⟩
        refine ⟨e', he', ?_⟩
        intro hc
        exact hbad hc.1 hc.2

/-- Concrete instance of C8: a batch merge with an unknown endpoint fails
and the network is unchanged. -/
theorem failed_op_leaves_last_snapshot_witness :
    (applyOp (mkNetwork ["SRC"]) (.addEdges [⟨"SRC", "XX", .stimulation, "", []⟩])).2 =
        some .invalidEdge ∧
      (applyOp (mkNetwork ["SRC"]) (.addEdges [⟨"SRC", "XX", .stimulation, "", []⟩])).1 =
        mkNetwork ["SRC"] :=
  ⟨by decide,
   (failed_op_leaves_last_snapshot (mkNetwork ["SRC"])
     (.addEdges [⟨"SRC", "XX", .stimulation, "", []⟩]) .invalidEdge (by decide)).1⟩

/-! ## Claim C3 -/

theorem Graph.mem_nodeIds_mergeInteraction {g : Graph} {i : Interaction} {x : String} :
    x ∈ (g.mergeInteraction i).nodeIds ↔ x ∈ g.nodeIds ∨ x = i.source ∨ x = i.target := by
  unfold Graph.mergeInteraction
  rw [Graph.nodeIds_addEdgeRec, Graph.mem_nodeIds_addNode, Graph.mem_nodeIds_addNode]
  simp [mkNode]
  tauto

theorem Graph.mem_nodeIds_mergeInteractions {is : List Interaction} :
    ∀ {g : Graph} {x : String},
      x ∈ (g.mergeInteractions is).nodeIds ↔
        x ∈ g.nodeIds ∨ ∃ i ∈ is, x = i.source ∨ x = i.target := by
  induction is with
  | nil =>
    intro g x
    simp [Graph.mergeInteractions]
  | cons i is ih =>
    intro g x
    show x ∈ ((g.mergeInteraction i).mergeInteractions is).nodeIds ↔ _
    rw [ih, Graph.mem_nodeIds_mergeInteraction]
    constructor
    · rintro ((h | h | h) | ⟨i', hi', h⟩)
      · exact Or.inl h
      · exact Or.inr ⟨i, List.mem_cons_self _ _, Or.inl h⟩
      · exact Or.inr ⟨i, List.mem_cons_self _ _, Or.inr h⟩
      · exact Or.inr ⟨i', List.mem_cons_of_mem _ hi', h⟩
    · rintro (h | ⟨i', hi', h⟩)
      · exact Or.inl (Or.inl h)
      · rcases List.mem_cons.1 hi' with rfl | hi'
        · exact Or.inl (Or.inr h)
        · exact Or.inr ⟨i', hi', h⟩

theorem mem_incidentInteractions {res : List Interaction} {f : Filters}
    {ids : List String} {i : Interaction} :
    i ∈ incidentInteractions res f ids ↔
      i ∈ res ∧ passes f i = true ∧ (i.source ∈ ids ∨ i.target ∈ ids) := by
  simp [incidentInteractions, List.mem_filter, Bool.and_eq_true, Bool.or_eq_true,
    decide_eq_true_eq, and_assoc]

theorem Graph.mem_nodeIds_radialStep {g : Graph} {res : List Interaction}
    {f : Filters} {x : String} :
    x ∈ (g.radialStep res f).nodeIds ↔
      x ∈ g.nodeIds ∨ ∃ a ∈ g.nodeIds, UAdj res f a x := by
  unfold Graph.radialStep
  rw [Graph.mem_nodeIds_mergeInteractions]
  constructor
  · rintro (h | ⟨i, hi, hx⟩)
    · exact Or.inl h
    · rcases mem_incidentInteractions.1 hi with ⟨hres, hp, hio⟩
      rcases hx with rfl | rfl
      · rcases hio with h | h
        · exact Or.inl h
        · exact Or.inr ⟨i.target, h, ⟨i, hres, hp, Or.inr ⟨rfl, rfl⟩⟩⟩
      · rcases hio with h | h
        · exact Or.inr ⟨i.source, h, ⟨i, hres, hp, Or.inl ⟨rfl, rfl⟩⟩⟩
        · exact Or.inl h
  · rintro (h | ⟨a, ha, i, hres, hp, hor⟩)
    · exact Or.inl h
    · rcases hor with ⟨h1, h2⟩ | ⟨h1, h2⟩
      · exact Or.inr ⟨i, mem_incidentInteractions.2 ⟨hres, hp, Or.inl (h1 ▸ ha)⟩,
          Or.inr h2.symm⟩
      · exact Or.inr ⟨i, mem_incidentInteractions.2 ⟨hres, hp, Or.inr (h2 ▸ ha)⟩,
          Or.inl h1.symm⟩

/-- Claim C3: `connect_network_radially` with `max_len = k` yields exactly
the set of nodes within undirected graph-distance `k` of the initial node
set in the filtered resource graph, and each iteration is monotonic — no
node present before it is absent after it. -/
theorem radial_nodes_eq_ball :
    ∀ (res : List Interaction) (f : Filters) (k : Nat) (g : Graph) (x : String),
      (x ∈ (g.connectRadially res f k).nodeIds ↔ WithinDist res f g.nodeIds x k) ∧
      (x ∈ g.nodeIds → x ∈ (g.radialStep res f).nodeIds) := by
  intro res f k
  induction k with
  | zero =>
    intro g x
    constructor
    · show x ∈ g.nodeIds ↔ _
      constructor
      · intro h
        exact ⟨x, h, 0, Nat.le_refl 0, UWalk.refl x⟩
      · rintro ⟨s, hs, n, hn, w⟩
        have hn0 : n = 0 := Nat.le_zero.1 hn
        subst hn0
        cases w
        exact hs
    · intro h
      exact Graph.mem_nodeIds_radialStep.2 (Or.inl h)
  | succ k ih =>
    intro g x
    constructor
    · show x ∈ ((g.radialStep res f).connectRadially res f k).nodeIds ↔ _
      rw [(ih (g.radialStep res f) x).1]
      constructor
      · rintro ⟨s, hs, n, hn, w⟩
        rcases Graph.mem_nodeIds_radialStep.1 hs with h | ⟨a, ha, hadj⟩
        · exact ⟨s, h, n, Nat.le_succ_of_le hn, w⟩
        · exact ⟨a, ha, n + 1, Nat.succ_le_succ hn, UWalk.step hadj w⟩
      · rintro ⟨s, hs, n, hn, w⟩
        cases w with
        | refl =>
          exact ⟨x, Graph.mem_nodeIds_radialStep.2 (Or.inl hs), 0, Nat.zero_le _,
            UWalk.refl x⟩
        | step hadj w' =>
          exact ⟨_, Graph.mem_nodeIds_radialStep.2 (Or.inr ⟨s, hs, hadj⟩), _,
            Nat.le_of_succ_le_succ hn, w'⟩
    · intro h
      exact Graph.mem_nodeIds_radialStep.2 (Or.inl h)

/-- Concrete instance of C3, with the INE-style worked example: one radial
iteration from {A, B} over the example resource reaches C, which is at
distance 1, and A survives the iteration. -/
theorem radial_nodes_eq_ball_witness :
    "C" ∈ (abGraph.connectRadially abRes strictFilters 1).nodeIds ∧
      WithinDist abRes strictFilters abGraph.nodeIds "C" 1 ∧
      "A" ∈ (abGraph.radialStep abRes strictFilters).nodeIds :=
  ⟨by decide,
   (radial_nodes_eq_ball abRes strictFilters 1 abGraph "C").1.1 (by decide),
   (radial_nodes_eq_ball abRes strictFilters 1 abGraph "A").2 (by decide)⟩

/-! ## Claim C4 -/

theorem isSigned_of_passes {f : Filters} {i : Interaction}
    (hf : f.onlySigned = true) (hp : passes f i = true) :
    isSigned i.effect = true := by
  unfold passes at hp
  rw [hf] at hp
  rw [Bool.and_eq_true] at hp
  rcases hp with ⟨h1, _⟩
  simpa using h1

theorem Graph.mem_edges_mergeInteraction {g : Graph} {i : Interaction} {e : Edge} :
    e ∈ (g.mergeInteraction i).edges ↔ e ∈ g.edges ∨ e = i.toEdge := by
  unfold Graph.mergeInteraction
  rw [Graph.mem_edges_addEdgeRec, Graph.edges_addNode, Graph.edges_addNode]

theorem Graph.mem_edges_mergeInteractions {is : List Interaction} :
    ∀ {g : Graph} {e : Edge},
      e ∈ (g.mergeInteractions is).edges ↔ e ∈ g.edges ∨ ∃ i ∈ is, e = i.toEdge := by
  induction is with
  | nil =>
    intro g e
    simp [Graph.mergeInteractions]
  | cons i is ih =>
    intro g e
    show e ∈ ((g.mergeInteraction i).mergeInteractions is).edges ↔ _
    rw [ih, Graph.mem_edges_mergeInteraction]
    constructor
    · rintro ((h | h) | ⟨i', hi', h⟩)
      · exact Or.inl h
      · exact Or.inr ⟨i, List.mem_cons_self _ _, h⟩
      · exact Or.inr ⟨i', List.mem_cons_of_mem _ hi', h⟩
    · rintro (h | ⟨i', hi', h⟩)
      · exact Or.inl (Or.inl h)
      · rcases List.mem_cons.1 hi' with rfl | hi'
        · exact Or.inl (Or.inr h)
        · exact Or.inr ⟨i', hi', h⟩

theorem mem_candInteractions {res : List Interaction} {f : Filters}
    {x y : String} {i : Interaction} (h : i ∈ candInteractions res f x y) :
    i ∈ res ∧ passes f i = true := by
  rcases List.mem_filter.1 h with ⟨hres, hp⟩
  rw [Bool.and_eq_true] at hp
  rcases hp with ⟨hp1, _⟩
  rw [Bool.and_eq_true] at hp1
  rcases hp1 with ⟨hp2, _⟩
  exact ⟨hres, hp2⟩

theorem pickInteraction_spec {res : List Interaction} {f : Filters} {bias : Bool}
    {x y : String} {i : Interaction} (h : pickInteraction res f bias x y = some i) :
    i ∈ res ∧ passes f i = true := by
  unfold pickInteraction at h
  have hmem : i ∈ (if bias then
      (candInteractions res f x y).filter (·.curated) ++
        (candInteractions res f x y).filter (fun i => !i.curated)
    else candInteractions res f x y) :=
    List.mem_of_mem_head? (by simp [h])
  split at hmem
  · rcases List.mem_append.1 hmem with hm | hm
    · exact mem_candInteractions (List.mem_of_mem_filter hm)
    · exact mem_candInteractions (List.mem_of_mem_filter hm)
  · exact mem_candInteractions hmem

theorem mem_pathEdges {res : List Interaction} {f : Filters} {bias : Bool} :
    ∀ {p : List String} {e : Edge}, e ∈ pathEdges res f bias p →
      ∃ i, i ∈ res ∧ passes f i = true ∧ e = i.toEdge := by
  intro p
  induction p with
  | nil =>
    intro e h
    simp [pathEdges] at h
  | cons x rest ih =>
    cases rest with
    | nil =>
      intro e h
      simp [pathEdges] at h
    | cons y rest' =>
      intro e h
      rw [show pathEdges res f bias (x :: y :: rest') =
        (match pickInteraction res f bias x y with
         | some i => [i.toEdge]
         | none => []) ++ pathEdges res f bias (y :: rest') from rfl] at h
      rcases List.mem_append.1 h with h | h
      · cases hp : pickInteraction res f bias x y with
        | some i =>
          rw [hp] at h
          rcases List.mem_singleton.1 h with rfl
          exact ⟨i, (pickInteraction_spec hp).1, (pickInteraction_spec hp).2, rfl⟩
        | none =>
          rw [hp] at h
          simp at h
      · exact ih h

theorem edges_foldl_addNode (ns : List NodeRec) : ∀ (g : Graph),
    (ns.foldl Graph.addNode g).edges = g.edges := by
  induction ns with
  | nil => intro g; rfl
  | cons n ns ih =>
    intro g
    show (ns.foldl Graph.addNode (g.addNode n)).edges = g.edges
    rw [ih, Graph.edges_addNode]

theorem Graph.mem_edges_mergePath {g : Graph} {res : List Interaction} {f : Filters}
    {bias : Bool} {p : List String} {e : Edge} :
    e ∈ (g.mergePath res f bias p).edges ↔
      e ∈ g.edges ∨ e ∈ pathEdges res f bias p := by
  show e ∈ (((p.map mkNode).foldl Graph.addNode g).mergeEdges (pathEdges res f bias p)).edges ↔ _
  rw [Graph.mem_edges_mergeEdges, edges_foldl_addNode]

theorem foldl_edges_signed {β : Type} (step : Graph → β → Graph)
    (hstep : ∀ (gg : Graph) (b : β) (e : Edge),
      e ∈ (step gg b).edges → e ∈ gg.edges ∨ isSigned e.effect = true) :
    ∀ (l : List β) (gg : Graph) (e : Edge),
      e ∈ (l.foldl step gg).edges → e ∈ gg.edges ∨ isSigned e.effect = true := by
  intro l
  induction l with
  | nil => intro gg e h; exact Or.inl h
  | cons b l ih =>
    intro gg e h
    rcases ih (step gg b) e h with h | h
    · exact hstep gg b e h
    · exact Or.inr h

theorem radial_edges_signed {res : List Interaction} {f : Filters}
    (hf : f.onlySigned = true) :
    ∀ (k : Nat) (g : Graph) (e : Edge),
      e ∈ (g.connectRadially res f k).edges → e ∈ g.edges ∨ isSigned e.effect = true := by
  intro k
  induction k with
  | zero => intro g e h; exact Or.inl h
  | succ k ih =>
    intro g e h
    have h' : e ∈ ((g.radialStep res f).connectRadially res f k).edges := h
    rcases ih (g.radialStep res f) e h' with h2 | h2
    · unfold Graph.radialStep at h2
      rcases Graph.mem_edges_mergeInteractions.1 h2 with h3 | ⟨i, hi, rfl⟩
      · exact Or.inl h3
      · right
        rcases mem_incidentInteractions.1 hi with ⟨_, hp, _⟩
        exact isSigned_of_passes hf hp
    · exact Or.inr h2

/-- The claim as frozen is false on the code: the executed ontology
notebook shows a `bimodal` record merged by `connect_genes_to_phenotype`
under `only_signed=True` (row Q05397 → epithelial_to_mesenchymal_transition,
bimodal).  The model reproduces it on a two-interaction resource with
conflicting signs: the compressed phenotype edge is bimodal, hence not
signed, although the store held no edge before. -/
theorem only_signed_compress_bimodal_cex :
    (⟨"Q05397", "emt", .bimodal, "", ["r1", "r2"]⟩ : Edge) ∈
        (emtGraph.connectGenesToPhenotype emtRes ["G1", "G2"] "emt" true true).edges ∧
      emtGraph.edges = [] ∧ isSigned Effect.bimodal = false := by
  decide

/-- Claim C4 (amended): with `only_signed` set, every interaction merged by
`connect_nodes`, `complete_connection`, `connect_network_radially` or
`connect_genes_to_phenotype` without compression is signed — its effect is
stimulation or inhibition; the exception forced by the counterexample is
the compressed phenotype edge, whose reconciled effect may be bimodal when
the compressed signed interactions conflict. -/
theorem only_signed_merges_signed :
    ∀ (g : Graph) (res : List Interaction) (f : Filters) (bias : Bool)
      (mode : SearchMode) (L k : Nat) (pool : List String) (label : String) (e : Edge),
      f.onlySigned = true →
      (e ∈ (g.connectNodes res f).edges → e ∈ g.edges ∨ isSigned e.effect = true) ∧
      (e ∈ (g.completeConnection res f bias mode L).edges →
        e ∈ g.edges ∨ isSigned e.effect = true) ∧
      (e ∈ (g.connectRadially res f k).edges → e ∈ g.edges ∨ isSigned e.effect = true) ∧
      (e ∈ (g.connectGenesToPhenotype res pool label true false).edges →
        e ∈ g.edges ∨ isSigned e.effect = true) := by
  intro g res f bias mode L k pool label e hf
  refine ⟨?_, ?_, ?_, ?_⟩
  · intro h
    unfold Graph.connectNodes at h
    rcases Graph.mem_edges_mergeInteractions.1 h with h | ⟨i, hi, rfl⟩
    · exact Or.inl h
    · right
      rcases List.mem_filter.1 hi with ⟨_, hp⟩
      rw [Bool.and_eq_true] at hp
      rcases hp with ⟨hp1, _⟩
      rw [Bool.and_eq_true] at hp1
      rcases hp1 with ⟨hp2, _⟩
      exact isSigned_of_passes hf hp2
  · intro h
    unfold Graph.completeConnection at h
    refine foldl_edges_signed _ ?_ _ g e h
    intro gg ab e' he'
    cases hc : connectingPath mode res f L ab.1 ab.2 with
    | some p =>
      rw [hc] at he'
      rcases Graph.mem_edges_mergePath.1 he' with h2 | h2
      · exact Or.inl h2
      · right
        rcases mem_pathEdges h2 with ⟨i, _, hp, rfl⟩
        exact isSigned_of_passes hf hp
    | none =>
      rw [hc] at he'
      exact Or.inl he'
  · exact radial_edges_signed hf k g e
  · intro h
    unfold Graph.connectGenesToPhenotype at h
    rw [if_neg (by simp)] at h
    rcases Graph.mem_edges_mergeInteractions.1 h with h | ⟨i, hi, rfl⟩
    · exact Or.inl h
    · right
      unfold poolInteractions at hi
      rcases List.mem_filter.1 hi with ⟨_, hp⟩
      rw [Bool.and_eq_true] at hp
      rcases hp with ⟨hp1, _⟩
      rw [Bool.and_eq_true] at hp1
      rcases hp1 with ⟨hp2, _⟩
      exact isSigned_of_passes (f := ⟨true, false⟩) rfl hp2
  -- end

/-- Concrete instance of the amended C4 on the worked example: the edge
merged by BFS `complete_connection` from A to B is signed. -/
theorem only_signed_merges_signed_witness :
    strictFilters.onlySigned = true ∧
      ((⟨"A", "C", .stimulation, "", []⟩ : Edge) ∈ abGraph.edges ∨
        isSigned (⟨"A", "C", .stimulation, "", []⟩ : Edge).effect = true) :=
  ⟨rfl,
   (only_signed_merges_signed abGraph abRes strictFilters false .bfs 2 0 [] ""
     (⟨"A", "C", .stimulation, "", []⟩ : Edge) rfl).2.1 (by decide)⟩

/-! ## Claim C5 -/

theorem Graph.nodeIds_mergeEdges (g : Graph) (es : List Edge) :
    (g.mergeEdges es).nodeIds = g.nodeIds := by
  unfold Graph.nodeIds
  rw [Graph.nodes_mergeEdges]

theorem Graph.nodeIds_addNode (g : Graph) (n : NodeRec) :
    (g.addNode n).nodeIds =
      if n.genesymbol ∈ g.nodeIds then g.nodeIds else g.nodeIds ++ [n.genesymbol] := by
  unfold Graph.addNode
  split
  · rfl
  · simp [Graph.nodeIds]

/-- The claim as frozen is false on the code: the executed ontology
notebook shows, after a single `connect_genes_to_phenotype` call with
`compress=True`, two distinct records with the same source and phenotype
target (P46531 → epithelial_to_mesenchymal_transition with BioGRID
references next to P46531 → epithelial_to_mesenchymal_transition with
provenance "Gene Ontology").  The model reproduces it when a current node
is itself a pool member: the compressed record and the direct annotation
record share the (source, phenotype) pair without being reconciled. -/
theorem phenotype_duplicate_pair_cex :
    (emtGraph.connectGenesToPhenotype emtRes ["Q05397", "G1"] "emt" true true).edges =
        [⟨"Q05397", "emt", .stimulation, "", ["r1"]⟩,
         ⟨"Q05397", "emt", .stimulation, "", ["Gene Ontology"]⟩] ∧
      2 ≤ pairCount (emtGraph.connectGenesToPhenotype emtRes ["Q05397", "G1"] "emt" true true)
        "Q05397" "emt" := by
  decide

/-- Claim C5 (amended): running `connect_genes_to_phenotype` a second time
with identical parameters and `compress=True` yields the same store, and
no two compressed phenotype records share a source (they are deduplicated
by (source, phenotype) pair among themselves); however the deduplication
does not extend to the direct Gene-Ontology annotation records, so a
compressed record and a direct record may coexist for one pair.  The
hypotheses pin the synthetic phenotype identifier away from the resource
sources and the pool, as in every notebook run. -/
theorem phenotype_idempotent_dedup :
    ∀ (g : Graph) (res : List Interaction) (pool : List String) (label : String)
      (onlySigned : Bool),
      (∀ i ∈ res, i.source ≠ phenotypeId label) →
      phenotypeId label ∉ pool →
      ((g.connectGenesToPhenotype res pool label onlySigned true).connectGenesToPhenotype
          res pool label onlySigned true) =
        g.connectGenesToPhenotype res pool label onlySigned true ∧
      (compressedEdges g res onlySigned pool label).Pairwise
        (fun e1 e2 => e1.source ≠ e2.source) := by
  intro g res pool label onlySigned hres hpool
  have hcgp : ∀ (gg : Graph),
      gg.connectGenesToPhenotype res pool label onlySigned true =
        (gg.addNode (mkNode (phenotypeId label))).mergeEdges
          (compressedEdges gg res onlySigned pool label ++
            directOntologyEdges gg pool label) := by
    intro gg
    unfold Graph.connectGenesToPhenotype
    rw [if_pos rfl]
  constructor
  · set ph := phenotypeId label with hph
    set g' := g.connectGenesToPhenotype res pool label onlySigned true with hg'
    have hids : g'.nodeIds = (g.addNode (mkNode ph)).nodeIds := by
      rw [hg', hcgp g, Graph.nodeIds_mergeEdges]
    have hmemiff : ∀ x, x ∈ g'.nodeIds ↔ x ∈ g.nodeIds ∨ x = ph := by
      intro x
      rw [hids]
      exact Graph.mem_nodeIds_addNode
    have hpoolEq : poolInteractions g' res onlySigned pool =
        poolInteractions g res onlySigned pool := by
      unfold poolInteractions
      refine List.filter_congr ?_
      intro i hi
      have hsrc : decide (i.source ∈ g'.nodeIds) = decide (i.source ∈ g.nodeIds) := by
        refine decide_eq_decide.2 ⟨fun h => ?_, fun h => (hmemiff i.source).2 (Or.inl h)⟩
        rcases (hmemiff i.source).1 h with h | h
        · exact h
        · exact absurd h (hres i hi)
      rw [hsrc]
    have hCE : compressedEdges g' res onlySigned pool label =
        compressedEdges g res onlySigned pool label := by
      unfold compressedEdges
      rw [hpoolEq]
    have hDE : directOntologyEdges g' pool label =
        directOntologyEdges g pool label := by
      unfold directOntologyEdges
      rw [hids, Graph.nodeIds_addNode]
      split
    -- the phenotype node may or may not be fresh
      · rfl
      · rw [List.filter_append]
        have hphfilter : ([(mkNode ph).genesymbol].filter (fun x => decide (x ∈ pool))) = [] := by
          simp [mkNode, hpool]
        rw [hphfilter, List.append_nil]
    have hphmem : ph ∈ g'.nodeIds := (hmemiff ph).2 (Or.inr rfl)
    have hedges : ∀ e ∈ compressedEdges g res onlySigned pool label ++
        directOntologyEdges g pool label, e ∈ g'.edges := by
      intro e he
      rw [hg', hcgp g]
      exact Graph.mem_edges_mergeEdges.2 (Or.inr he)
    rw [hcgp g', hCE, hDE]
    have haddnode : g'.addNode (mkNode ph) = g' := by
      unfold Graph.addNode
      rw [if_pos]
      exact hphmem
    rw [haddnode]
    exact Graph.mergeEdges_of_mem _ _ hedges
  · unfold compressedEdges
    rw [List.pairwise_map]
    exact List.nodup_dedup _

/-- Concrete instance of the amended C5 on the notebook-shaped scenario:
the second identical call leaves the store unchanged. -/
theorem phenotype_idempotent_dedup_witness :
    (∀ i ∈ emtRes, i.source ≠ phenotypeId "emt") ∧
      phenotypeId "emt" ∉ ["Q05397", "G1"] ∧
      ((emtGraph.connectGenesToPhenotype emtRes ["Q05397", "G1"] "emt" true
          true).connectGenesToPhenotype emtRes ["Q05397", "G1"] "emt" true true) =
        emtGraph.connectGenesToPhenotype emtRes ["Q05397", "G1"] "emt" true true :=
  ⟨by decide, by decide,
   (phenotype_idempotent_dedup emtGraph emtRes ["Q05397", "G1"] "emt" true (by decide)
     (by decide)).1⟩

/-! ## Claim C2 -/

theorem iterStep_succ_outer (res : List Interaction) (f : Filters) :
    ∀ (n : Nat) (ps : List (List String)),
      iterStep res f (n + 1) ps = stepPaths res f (iterStep res f n ps) := by
  intro n
  induction n with
  | zero => intro ps; rfl
  | succ n ih =>
    intro ps
    show iterStep res f (n + 1) (stepPaths res f ps) = _
    rw [ih (stepPaths res f ps)]
    rfl

theorem mem_iterStep_single {res : List Interaction} {f : Filters} {a : String} :
    ∀ {n : Nat} {p : List String},
      p ∈ iterStep res f n [[a]] ↔ (isRevPath res f a p = true ∧ p.length = n + 1) := by
  intro n
  induction n with
  | zero =>
    intro p
    show p ∈ [[a]] ↔ _
    constructor
    · intro h
      rcases List.mem_singleton.1 h with rfl
      exact ⟨by simp [isRevPath], rfl⟩
    · rintro ⟨hrev, hlen⟩
      match p, hlen with
      | [x], _ =>
        have hx : x = a := by simpa [isRevPath] using hrev
        subst hx
        exact List.mem_singleton.2 rfl
  | succ n ih =>
    intro p
    rw [iterStep_succ_outer]
    constructor
    · intro h
      rcases List.mem_flatMap.1 h with ⟨q, hq, hpq⟩
      rcases ih.1 hq with ⟨hrev, hlen⟩
      match q, hlen with
      | x :: rest, hlen =>
        rcases List.mem_map.1 hpq with ⟨y, hy, rfl⟩
        refine ⟨?_, ?_⟩
        · show (decide (y ∈ successors res f x) && isRevPath res f a (x :: rest)) = true
          rw [Bool.and_eq_true]
          exact ⟨decide_eq_true hy, hrev⟩
        · simpa using congrArg Nat.succ hlen
    · rintro ⟨hrev, hlen⟩
      match p, hlen with
      | y :: x :: rest, hlen =>
        have hrev' : (decide (y ∈ successors res f x) && isRevPath res f a (x :: rest)) = true :=
          hrev
        rw [Bool.and_eq_true] at hrev'
        rcases hrev' with ⟨hy, hrest⟩
        refine List.mem_flatMap.2 ⟨x :: rest, ih.2 ⟨hrest, by simpa using hlen⟩, ?_⟩
        exact List.mem_map.2 ⟨y, of_decide_eq_true hy, rfl⟩

theorem head_of_find?_hit {b : String} {ps : List (List String)} {p : List String}
    (h : ps.find? (fun p => p.head? == some b) = some p) : p.head? = some b := by
  have := List.find?_some h
  simpa using this

theorem bfs_sound {res : List Interaction} {f : Filters} {b : String} :
    ∀ (fuel : Nat) (ps : List (List String)) (p : List String),
      bfsAux res f b fuel ps = some p →
      ∃ k, k ≤ fuel ∧ p ∈ iterStep res f k ps ∧ p.head? = some b := by
  intro fuel
  induction fuel with
  | zero =>
    intro ps p h
    exact ⟨0, Nat.le_refl 0, List.mem_of_find?_eq_some h, head_of_find?_hit h⟩
  | succ fuel ih =>
    intro ps p h
    rw [show bfsAux res f b (fuel + 1) ps =
      (match ps.find? (fun p => p.head? == some b) with
       | some p => some p
       | none => bfsAux res f b fuel (stepPaths res f ps)) from rfl] at h
    cases hfind : ps.find? (fun p => p.head? == some b) with
    | some q =>
      rw [hfind] at h
      cases h
      exact ⟨0, Nat.zero_le _, List.mem_of_find?_eq_some hfind, head_of_find?_hit hfind⟩
    | none =>
      rw [hfind] at h
      rcases ih (stepPaths res f ps) p h with ⟨k, hk, hmem, hd⟩
      exact ⟨k + 1, Nat.succ_le_succ hk, hmem, hd⟩

theorem bfs_complete {res : List Interaction} {f : Filters} {b : String} :
    ∀ (fuel : Nat) (ps : List (List String)),
      (∃ j, j ≤ fuel ∧ ∃ q ∈ iterStep res f j ps, q.head? = some b) →
      ∃ p k, bfsAux res f b fuel ps = some p ∧ k ≤ fuel ∧ p ∈ iterStep res f k ps ∧
        p.head? = some b ∧
        ∀ m, m < k → ¬ ∃ q ∈ iterStep res f m ps, q.head? = some b := by
  intro fuel
  induction fuel with
  | zero =>
    rintro ps ⟨j, hj, q, hq, hd⟩
    have hj0 : j = 0 := Nat.le_zero.1 hj
    subst hj0
    have hsome : (ps.find? (fun p => p.head? == some b)).isSome := by
      refine List.find?_isSome.2 ⟨q, hq, ?_⟩
      simp [hd]
    rcases Option.isSome_iff_exists.1 hsome with ⟨p, hp⟩
    exact ⟨p, 0, hp, Nat.le_refl 0, List.mem_of_find?_eq_some hp, head_of_find?_hit hp,
      fun m hm => absurd hm (Nat.not_lt_zero m)⟩
  | succ fuel ih =>
    rintro ps ⟨j, hj, q, hq, hd⟩
    cases hfind : ps.find? (fun p => p.head? == some b) with
    | some p =>
      refine ⟨p, 0, ?_, Nat.zero_le _, List.mem_of_find?_eq_some hfind,
        head_of_find?_hit hfind, fun m hm => absurd hm (Nat.not_lt_zero m)⟩
      rw [show bfsAux res f b (fuel + 1) ps =
        (match ps.find? (fun p => p.head? == some b) with
         | some p => some p
         | none => bfsAux res f b fuel (stepPaths res f ps)) from rfl, hfind]
    | none =>
      have hmiss : ∀ q' ∈ ps, ¬ q'.head? = some b := by
        intro q' hq' hd'
        have := List.find?_eq_none.1 hfind q' hq'
        simp [hd'] at this
      cases j with
      | zero => exact absurd hd (hmiss q hq)
      | succ j' =>
        have hq' : q ∈ iterStep res f j' (stepPaths res f ps) := hq
        rcases ih (stepPaths res f ps)
            ⟨j', Nat.le_of_succ_le_succ hj, q, hq', hd⟩ with
          ⟨p, k, heq, hk, hmem, hd2, hmin⟩
        refine ⟨p, k + 1, ?_, Nat.succ_le_succ hk, hmem, hd2, ?_⟩
        · rw [show bfsAux res f b (fuel + 1) ps =
            (match ps.find? (fun p => p.head? == some b) with
             | some p => some p
             | none => bfsAux res f b fuel (stepPaths res f ps)) from rfl, hfind]
          exact heq
        · intro m hm
          cases m with
          | zero =>
            rintro ⟨q', hq', hd'⟩
            exact hmiss q' hq' hd'
          | succ m' =>
            rintro ⟨q', hq', hd'⟩
            exact hmin m' (Nat.lt_of_succ_lt_succ hm) ⟨q', hq', hd'⟩

theorem firstSome_some {l : List α} {f : α → Option β} {y : β}
    (h : firstSome l f = some y) : ∃ x ∈ l, f x = some y := by
  induction l with
  | nil => simp [firstSome] at h
  | cons x xs ih =>
    rw [show firstSome (x :: xs) f =
      (match f x with
       | some b => some b
       | none => firstSome xs f) from rfl] at h
    cases hf : f x with
    | some b =>
      rw [hf] at h
      cases h
      exact ⟨x, List.mem_cons_self _ _, hf⟩
    | none =>
      rw [hf] at h
      rcases ih h with ⟨x', hx', hfx'⟩
      exact ⟨x', List.mem_cons_of_mem _ hx', hfx'⟩

theorem dfs_bound {res : List Interaction} {f : Filters} {b : String} :
    ∀ (fuel : Nat) (x : String) (p : List String),
      dfsAux res f b fuel x = some p → p.length ≤ fuel + 1 := by
  intro fuel
  induction fuel with
  | zero =>
    intro x p h
    unfold dfsAux at h
    split at h
    · cases h
      exact Nat.le_refl 1
    · exact absurd h (by simp)
  | succ fuel ih =>
    intro x p h
    rw [show dfsAux res f b (fuel + 1) x =
      (if x = b then some [x]
       else firstSome (successors res f x)
         (fun y => (dfsAux res f b fuel y).map (fun p => x :: p))) from rfl] at h
    split at h
    · cases h
      exact Nat.le_add_left 1 (fuel + 1)
    · rcases firstSome_some h with ⟨y, _, hy⟩
      rcases Option.map_eq_some'.1 hy with ⟨q, hq, rfl⟩
      have := ih y q hq
      simpa [Nat.succ_le_succ_iff] using Nat.succ_le_succ this

/-- Claim C2: `complete_connection` with `max_len = L` never merges a
connecting path of more than `L` hops for any seed pair (the path merged
for the pair `(a, b)` is `connectingPath mode res f L a b`); and in BFS
mode, whenever a connecting path of at most `L` hops exists, the merged
path's hop count equals the true shortest-path distance between the pair
in the filtered resource graph. -/
theorem connecting_path_bounded_and_bfs_shortest :
    ∀ (res : List Interaction) (f : Filters) (L : Nat) (a b : String),
      (∀ (mode : SearchMode) (p : List String),
        connectingPath mode res f L a b = some p → p.length ≤ L + 1) ∧
      (∀ n, n ≤ L → ReachIn res f a b n →
        ∃ p d, connectingPath .bfs res f L a b = some p ∧ p.length = d + 1 ∧
          IsShortestDist res f a b d) := by
  intro res f L a b
  constructor
  · intro mode p h
    cases mode with
    | dfs => exact dfs_bound L a p h
    | bfs =>
      rcases Option.map_eq_some'.1 h with ⟨q, hq, rfl⟩
      rcases bfs_sound L [[a]] q hq with ⟨k, hk, hmem, _⟩
      rcases mem_iterStep_single.1 hmem with ⟨_, hlen⟩
      rw [List.length_reverse, hlen]
      exact Nat.succ_le_succ hk
  · rintro n hn ⟨p0, hrev, hd0, hlen0⟩
    have hp0 : p0 ∈ iterStep res f n [[a]] := mem_iterStep_single.2 ⟨hrev, hlen0⟩
    rcases bfs_complete L [[a]] ⟨n, hn, p0, hp0, hd0⟩ with
      ⟨p, k, heq, hkL, hmem, hd, hmin⟩
    rcases mem_iterStep_single.1 hmem with ⟨hrevp, hlenp⟩
    refine ⟨p.reverse, k, ?_, by simpa using hlenp, ⟨p, hrevp, hd, hlenp⟩, ?_⟩
    · show (bfsSearch res f a b L).map List.reverse = some p.reverse
      unfold bfsSearch
      rw [heq]
      rfl
    · rintro m ⟨q, hrevq, hdq, hlenq⟩
      by_contra hlt
      push_neg at hlt
      exact hmin m hlt ⟨q, mem_iterStep_single.2 ⟨hrevq, hlenq⟩, hdq⟩

/-- Concrete instance of C2 on the worked example of the spec (§8): BFS
with `max_len = 2` connects A to B through C by the two-hop path, which is
within the bound and of shortest length. -/
theorem connecting_path_bounded_and_bfs_shortest_witness :
    connectingPath .bfs abRes strictFilters 2 "A" "B" = some ["A", "C", "B"] ∧
      (["A", "C", "B"] : List String).length ≤ 2 + 1 ∧
      (∃ p d, connectingPath .bfs abRes strictFilters 2 "A" "B" = some p ∧
        p.length = d + 1 ∧ IsShortestDist abRes strictFilters "A" "B" d) :=
  ⟨by decide,
   (connecting_path_bounded_and_bfs_shortest abRes strictFilters 2 "A" "B").1 .bfs
     ["A", "C", "B"] (by decide),
   (connecting_path_bounded_and_bfs_shortest abRes strictFilters 2 "A" "B").2 2
     (Nat.le_refl 2) ⟨["B", "C", "A"], by decide, rfl, rfl⟩⟩

end Neko
